import Mathlib

/-!
Verification of the persistence/versioning engine of a hierarchical
document store (`electron/services/projectStore.ts`).

The store keeps, per project, a metadata record (`project.json`) holding a
forest of chapter nodes (leaf `chapter`s and container `group`s), a committed
content file per leaf (`chapters/<id>.md`), an autosave cache
(`autosave/<id>.draft`) and a snapshot timeline
(`timeline/<id>/<timestampMs>.snapshot`).

This file gives a shallow embedding of that engine: stored JSON records are
modelled with `Option` fields where the code defensively defaults them,
the filesystem is modelled as association lists from chapter id to file
entries, and every `Date.now()` call inside a single operation is modelled as
one `now : Nat` parameter.  A node's optional `children` array is modelled as
a plain list (`[]` for an absent array): every operation first normalizes the
tree, after which the two are indistinguishable to the code.
-/

namespace ProjectStore

/-- `StoryNodeKind` from `src/shared/types.ts`: `'group' | 'chapter'`. -/
inductive StoryNodeKind where
  | group
  | chapter
deriving DecidableEq, Repr

/-- `ChapterMeta`: the persisted shape of a node
(`Omit<Chapter, 'draft' | 'autosaveTimestamp' | 'children'> & { children?: ChapterMeta[] }`).
Fields that stored records may lack (and that the code defaults with `??`)
are `Option`s. -/
inductive ChapterMeta where
  | node (id : String) (title : String) (kind : Option StoryNodeKind)
      (variant : Option String) (words : Option Nat) (status : Option String)
      (pace : Option String) (mood : Option String) (summary : Option String)
      (updatedAt : Option Nat) (children : List ChapterMeta)
deriving Repr

def ChapterMeta.id : ChapterMeta → String
  | .node i _ _ _ _ _ _ _ _ _ _ => i

def ChapterMeta.title : ChapterMeta → String
  | .node _ t _ _ _ _ _ _ _ _ _ => t

def ChapterMeta.kind : ChapterMeta → Option StoryNodeKind
  | .node _ _ k _ _ _ _ _ _ _ _ => k

def ChapterMeta.variant : ChapterMeta → Option String
  | .node _ _ _ v _ _ _ _ _ _ _ => v

def ChapterMeta.words : ChapterMeta → Option Nat
  | .node _ _ _ _ w _ _ _ _ _ _ => w

def ChapterMeta.status : ChapterMeta → Option String
  | .node _ _ _ _ _ st _ _ _ _ _ => st

def ChapterMeta.pace : ChapterMeta → Option String
  | .node _ _ _ _ _ _ p _ _ _ _ => p

def ChapterMeta.mood : ChapterMeta → Option String
  | .node _ _ _ _ _ _ _ m _ _ _ => m

def ChapterMeta.summary : ChapterMeta → Option String
  | .node _ _ _ _ _ _ _ _ sm _ _ => sm

def ChapterMeta.updatedAt : ChapterMeta → Option Nat
  | .node _ _ _ _ _ _ _ _ _ u _ => u

def ChapterMeta.children : ChapterMeta → List ChapterMeta
  | .node _ _ _ _ _ _ _ _ _ _ cs => cs

def ChapterMeta.setChildren : ChapterMeta → List ChapterMeta → ChapterMeta
  | .node i t k v w st p m sm u _, cs => .node i t k v w st p m sm u cs

def ChapterMeta.setWords : ChapterMeta → Option Nat → ChapterMeta
  | .node i t k v _ st p m sm u cs, w => .node i t k v w st p m sm u cs

def ChapterMeta.setUpdatedAt : ChapterMeta → Option Nat → ChapterMeta
  | .node i t k v w st p m sm _ cs, u2 => .node i t k v w st p m sm u2 cs

/-- `DEFAULT_CHAPTER_KIND = 'chapter'` (the spec's `Leaf`). -/
def DEFAULT_CHAPTER_KIND : StoryNodeKind := .chapter

/-- `MAX_SNAPSHOTS = 20`: the snapshot retention cap. -/
def MAX_SNAPSHOTS : Nat := 20

/-! ### Tree normalization and aggregate recomputation -/

/-- Sum of the (already normalized) direct children's `words`, as in
`chapter.children.reduce((sum, child) => sum + child.words, 0)`. -/
def sumChildWords (children : List ChapterMeta) : Nat :=
  children.foldl (fun sum child => sum + child.words.getD 0) 0

mutual

/-- `normalizeChapterTree`: fills per-node defaults (`kind`, `updatedAt`,
`words`, `summary`, `pace`, `mood`, `status`), normalizes children first,
and recomputes a `group`'s `words` from its normalized children. -/
def normalizeChapterTree (chapters : List ChapterMeta) (fallbackTime : Nat) :
    List ChapterMeta :=
  match chapters with
  | [] => []
  | c :: rest => normalizeChapterNode c fallbackTime :: normalizeChapterTree rest fallbackTime

/-- One `chapters.forEach` body of `normalizeChapterTree`. -/
def normalizeChapterNode (c : ChapterMeta) (fallbackTime : Nat) : ChapterMeta :=
  match c with
  | .node i t kind v words st p m sm upd children =>
    let kind' := kind.getD DEFAULT_CHAPTER_KIND
    let children' := normalizeChapterTree children fallbackTime
    let upd' := upd.getD fallbackTime
    let words' := words.getD 0
    let sm' := sm.getD ""
    let p' := p.getD ("balanced")
    let m' := m.getD ("未设定")
    let st' := st.getD ("outline")
    let words'' := if kind' = .group then sumChildWords children' else words'
    .node i t (some kind') v (some words'') (some st') (some p') (some m') (some sm')
      (some upd') children'

end

mutual

/-- `findChapterMeta`: depth-first search for the first node with the given
id (a node itself, then its children, then its later siblings). -/
def findChapterMeta (nodes : List ChapterMeta) (chapterId : String) :
    Option ChapterMeta :=
  match nodes with
  | [] => none
  | node :: rest =>
    if node.id = chapterId then some node
    else
      match findChapterMetaChildren node chapterId with
      | some m => some m
      | none => findChapterMeta rest chapterId

/-- Search inside one node's children (the recursive call of `findChapterMeta`). -/
def findChapterMetaChildren (node : ChapterMeta) (chapterId : String) :
    Option ChapterMeta :=
  match node with
  | .node _ _ _ _ _ _ _ _ _ _ children => findChapterMeta children chapterId

end

/-- The top-level scan of `removeChapterMeta`
(`nodes.findIndex` + `splice`): remove the first node at THIS level whose id
matches, returning it and the remaining level. -/
def removeChapterMetaTop (nodes : List ChapterMeta) (chapterId : String) :
    Option (ChapterMeta × List ChapterMeta) :=
  match nodes with
  | [] => none
  | node :: rest =>
    if node.id = chapterId then some (node, rest)
    else
      match removeChapterMetaTop rest chapterId with
      | some (removed, rest') => some (removed, node :: rest')
      | none => none

mutual

/-- `removeChapterMeta`: detach the subtree rooted at `chapterId`.  First the
current level is scanned (`findIndex`/`splice`), then each node's children are
searched recursively.  Returns the removed subtree and the updated forest. -/
def removeChapterMeta (nodes : List ChapterMeta) (chapterId : String) :
    Option (ChapterMeta × List ChapterMeta) :=
  match removeChapterMetaTop nodes chapterId with
  | some r => some r
  | none => removeChapterMetaDeep nodes chapterId

/-- The `for (const node of nodes)` loop of `removeChapterMeta`, recursing
into children. -/
def removeChapterMetaDeep (nodes : List ChapterMeta) (chapterId : String) :
    Option (ChapterMeta × List ChapterMeta) :=
  match nodes with
  | [] => none
  | .node i t k v w st p m sm u children :: rest =>
    match removeChapterMeta children chapterId with
    | some (removed, children') =>
      some (removed, .node i t k v w st p m sm u children' :: rest)
    | none =>
      match removeChapterMetaDeep rest chapterId with
      | some (removed, rest') =>
        some (removed, .node i t k v w st p m sm u children :: rest')
      | none => none

end

/-- The recursive search of `insertChapterMeta` for a given `parentId`:
append `node` to the children of the first node matching `parentId`.  The
returned `Bool` is the function's success result. -/
def insertChapterMetaAux (nodes : List ChapterMeta) (parentId : String)
    (node : ChapterMeta) : List ChapterMeta × Bool :=
  match nodes with
  | [] => ([], false)
  | .node i t k v w st p m sm u children :: rest =>
    if i = parentId then
      (.node i t k v w st p m sm u (children ++ [node]) :: rest, true)
    else
      match insertChapterMetaAux children parentId node with
      | (children', true) => (.node i t k v w st p m sm u children' :: rest, true)
      | (_, false) =>
        let r := insertChapterMetaAux rest parentId node
        (.node i t k v w st p m sm u children :: r.1, r.2)

/-- `insertChapterMeta`: append `node` under `parentId`, or at the root level
when `parentId` is absent.  Returns the updated forest and the success flag;
when `parentId` is given but not found, the forest is returned unchanged and
the flag is `false` (the inserted node is dropped). -/
def insertChapterMeta (nodes : List ChapterMeta) (parentId : Option String)
    (node : ChapterMeta) : List ChapterMeta × Bool :=
  match parentId with
  | none => (nodes ++ [node], true)
  | some pid => insertChapterMetaAux nodes pid node

mutual

/-- `refreshAggregateWords`: for a leaf (`kind === 'chapter'`) keep
`words ?? 0`; otherwise recompute the node's `words` as the sum of its
(recursively refreshed) children's totals.  Returns the updated node together
with its total (the source's return value). -/
def refreshAggregateWords (node : ChapterMeta) : ChapterMeta × Nat :=
  match node with
  | .node i t k v w st p m sm u children =>
    if k = some .chapter then
      let w' := w.getD 0
      (.node i t k v (some w') st p m sm u children, w')
    else
      let r := refreshAggregateList children
      (.node i t k v (some r.2) st p m sm u r.1, r.2)

/-- The `children.reduce` of `refreshAggregateWords`. -/
def refreshAggregateList (nodes : List ChapterMeta) : List ChapterMeta × Nat :=
  match nodes with
  | [] => ([], 0)
  | c :: rest =>
    let rc := refreshAggregateWords c
    let rr := refreshAggregateList rest
    (rc.1 :: rr.1, rc.2 + rr.2)

end

/-- `sumLeafWords`: total words over leaf (`kind === 'chapter'`) nodes; a
leaf contributes `words ?? 0` and its children are not visited, any other
node contributes the recursive sum over its children. -/
def sumLeafWords (chapters : List ChapterMeta) : Nat :=
  match chapters with
  | [] => 0
  | .node _ _ k _ w _ _ _ _ _ children :: rest =>
    (if k = some .chapter then w.getD 0 else sumLeafWords children) + sumLeafWords rest

mutual

/-- Apply `f` to the first node (in `findChapterMeta`'s depth-first order)
whose id is `chapterId`.  Models the source pattern of mutating the node
returned by `findChapterMeta` in place.  Returns the updated forest and
whether a node was found. -/
def updateFirstChapterMeta (nodes : List ChapterMeta) (chapterId : String)
    (f : ChapterMeta → ChapterMeta) : List ChapterMeta × Bool :=
  match nodes with
  | [] => ([], false)
  | node :: rest =>
    if node.id = chapterId then (f node :: rest, true)
    else
      match updateFirstChapterMetaNode node chapterId f with
      | (node', true) => (node' :: rest, true)
      | (_, false) =>
        let r := updateFirstChapterMeta rest chapterId f
        (node :: r.1, r.2)

/-- Update inside one node's children. -/
def updateFirstChapterMetaNode (node : ChapterMeta) (chapterId : String)
    (f : ChapterMeta → ChapterMeta) : ChapterMeta × Bool :=
  match node with
  | .node i t k v w st p m sm u children =>
    let r := updateFirstChapterMeta children chapterId f
    (.node i t k v w st p m sm u r.1, r.2)

end

/-! ### Sibling reorder (`reorderChapterChildren`)

The source builds a JavaScript `Map` from the target children
(`new Map(children.map(child => [child.id, child]))`), pulls out the nodes
named by `order` in order (deleting them from the `Map`), and appends
whatever is left in the `Map`'s insertion-order iteration.  The `Map` is
modelled as an association list with JavaScript `Map` semantics: `set` on an
existing key updates the value in place, otherwise appends; `delete` removes
the entry; iteration is list order. -/

def mapSet (m : List (String × ChapterMeta)) (k : String) (v : ChapterMeta) :
    List (String × ChapterMeta) :=
  match m with
  | [] => [(k, v)]
  | (k', v') :: rest =>
    if k' = k then (k', v) :: rest else (k', v') :: mapSet rest k v

def mapGet (m : List (String × ChapterMeta)) (k : String) : Option ChapterMeta :=
  match m with
  | [] => none
  | (k', v') :: rest => if k' = k then some v' else mapGet rest k

def mapDelete (m : List (String × ChapterMeta)) (k : String) :
    List (String × ChapterMeta) :=
  match m with
  | [] => []
  | (k', v') :: rest =>
    if k' = k then rest else (k', v') :: mapDelete rest k

/-- `new Map(children.map(child => [child.id, child]))`. -/
def buildIdMap (children : List ChapterMeta) : List (String × ChapterMeta) :=
  children.foldl (fun m c => mapSet m c.id c) []

/-- The `order.forEach` loop: pick the nodes named by `order` out of the map
in order; returns the picked prefix and the remaining map. -/
def reorderLoop (m : List (String × ChapterMeta)) (order : List String) :
    List ChapterMeta × List (String × ChapterMeta) :=
  match order with
  | [] => ([], m)
  | id :: rest =>
    match mapGet m id with
    | some item =>
      let r := reorderLoop (mapDelete m id) rest
      (item :: r.1, r.2)
    | none => reorderLoop m rest

/-- The child-sequence computation of `reorderChapterChildren` (lines
123-132): nodes named in `order` first, in that order; remaining children
appended afterwards in map iteration order. -/
def reorderList (children : List ChapterMeta) (order : List String) :
    List ChapterMeta :=
  let r := reorderLoop (buildIdMap children) order
  r.1 ++ r.2.map (fun e => e.2)

/-- `reorderChapterChildren`: reorder the children of `parentId` (or the root
level when `parentId` is `none`) according to `order`.  Returns the updated
forest and the success flag (`false` when `parentId` is not found). -/
def reorderChapterChildren (nodes : List ChapterMeta) (parentId : Option String)
    (order : List String) : List ChapterMeta × Bool :=
  match parentId with
  | none => (reorderList nodes order, true)
  | some pid =>
    match findChapterMeta nodes pid with
    | none => (nodes, false)
    | some parent =>
      let reordered := reorderList parent.children order
      updateFirstChapterMeta nodes pid (fun n => n.setChildren reordered)

mutual

/-- `collectChapterIds`: ids of all leaf (`kind === 'chapter'`) nodes of a
subtree; a leaf node is itself collected and its children are not visited. -/
def collectChapterIds (node : ChapterMeta) : List String :=
  match node with
  | .node i _ k _ _ _ _ _ _ _ children =>
    if k = some .chapter then [i]
    else collectChapterIdsList children

/-- The `flatMap` over children of `collectChapterIds`. -/
def collectChapterIdsList (nodes : List ChapterMeta) : List String :=
  match nodes with
  | [] => []
  | c :: rest => collectChapterIds c ++ collectChapterIdsList rest

end

/-- The forest-level mutation performed by `moveChapter` (lines 535-542):
detach the subtree at `chapterId`, re-insert it under `targetParentId`
(the success flag of `insertChapterMeta` is ignored by the source), then
refresh aggregates.  `none` when `chapterId` is not found (the operation
returns `null` without writing). -/
def moveChapter (nodes : List ChapterMeta) (chapterId : String)
    (targetParentId : Option String) : Option (List ChapterMeta) :=
  match removeChapterMeta nodes chapterId with
  | none => none
  | some (removed, nodes') =>
    some (refreshAggregateList (insertChapterMeta nodes' targetParentId removed).1).1

/-! ### The metadata record and load-time normalization -/

/-- The `stats` field of a project record. -/
structure ProjectStats where
  words : Nat
  characters : Nat
deriving Repr

/-- `ProjectMeta` (= `Omit<Project, 'structure' | 'chapters'> & { chapters }`).
Fields the load path defaults are `Option`s; `notes` and `progress` are
carried through untouched by every modelled operation and are elided. -/
structure ProjectMeta where
  id : String
  title : String
  description : Option String
  createdAt : Option Nat
  updatedAt : Option Nat
  stats : ProjectStats
  chapters : Option (List ChapterMeta)
deriving Repr

/-- JavaScript falsiness of an optional number (`!meta.createdAt`):
`undefined` and `0` are falsy. -/
def jsFalsyNat (o : Option Nat) : Bool :=
  match o with
  | none => true
  | some n => n == 0

/-- `updateProjectStats`: `meta.stats.words = sumLeafWords(meta.chapters)`. -/
def updateProjectStats (meta : ProjectMeta) : ProjectMeta :=
  { meta with stats := { meta.stats with words := sumLeafWords (meta.chapters.getD []) } }

/-- `refreshProjectAggregates`: refresh every root's aggregate words, then
the project-level stats. -/
def refreshProjectAggregates (meta : ProjectMeta) : ProjectMeta :=
  updateProjectStats
    { meta with chapters := some (refreshAggregateList (meta.chapters.getD [])).1 }

/-- The pure part of `loadProjectMeta` (lines 188-211): forward-compatible
normalization of a parsed record.  Returns the normalized record together
with the `dirty` flag; the caller persists the record exactly when `dirty`
is `true`.  `now` models `Date.now()`. -/
def loadProjectMetaPure (meta : ProjectMeta) (now : Nat) : ProjectMeta × Bool :=
  let createdAt := if jsFalsyNat meta.createdAt then some now else meta.createdAt
  let d1 := jsFalsyNat meta.createdAt
  let updatedAt :=
    if jsFalsyNat meta.updatedAt then some (createdAt.getD now) else meta.updatedAt
  let d2 := jsFalsyNat meta.updatedAt
  let description := some (meta.description.getD "")
  let d3 := meta.description.isNone
  let chapters0 := meta.chapters.getD []
  let d4 := meta.chapters.isNone
  let fallbackTime := updatedAt.getD (createdAt.getD now)
  let chapters1 := normalizeChapterTree chapters0 fallbackTime
  let meta' := refreshProjectAggregates
    { meta with createdAt := createdAt, updatedAt := updatedAt,
                description := description, chapters := some chapters1 }
  (meta', d1 || d2 || d3 || d4)

/-! ### Filesystem state -/

/-- A file on disk: its content plus its modification time. -/
structure FileEntry where
  content : String
  mtimeMs : Nat
deriving Repr

/-- Look up a file in a directory modelled as an association list keyed by
chapter id. -/
def fsLookup (files : List (String × FileEntry)) (k : String) : Option FileEntry :=
  (files.find? (fun e => e.1 = k)).map (fun e => e.2)

/-- `fs.writeFile`: overwrite or create; the mtime becomes `now`. -/
def fsWrite (files : List (String × FileEntry)) (k : String) (v : FileEntry) :
    List (String × FileEntry) :=
  match files with
  | [] => [(k, v)]
  | (k', v') :: rest =>
    if k' = k then (k', v) :: rest else (k', v') :: fsWrite rest k v

/-- `fs.rm(..., { force: true })`: remove if present. -/
def fsRemove (files : List (String × FileEntry)) (k : String) :
    List (String × FileEntry) :=
  files.filter (fun e => ¬ e.1 = k)

/-- `readFileIfExists`: the file's content, or `''` when absent. -/
def readFileIfExists (files : List (String × FileEntry)) (k : String) : String :=
  ((fsLookup files k).map FileEntry.content).getD ""

/-! ### Snapshot timeline (`recordSnapshot`) -/

/-- `` `${timestamp}.snapshot` ``. -/
def snapshotFileName (timestamp : Nat) : String :=
  toString timestamp ++ (".snapshot")

/-- `fs.writeFile` into a snapshot directory modelled as its list of file
names: writing an existing name overwrites in place, a new name is added. -/
def writeSnapshotFile (dir : List String) (name : String) : List String :=
  if name ∈ dir then dir else dir ++ [name]

/-- `files.sort()`: JavaScript's default lexicographic sort of the directory
listing. -/
def sortFileNames (dir : List String) : List String :=
  dir.insertionSort (fun a b => a ≤ b)

/-- The `while (sorted.length > MAX_SNAPSHOTS) sorted.shift()` eviction loop:
repeatedly drop the lexicographically smallest name while over the cap. -/
def evictOverCap (dir : List String) : List String :=
  if dir.length > MAX_SNAPSHOTS then evictOverCap dir.tail else dir
termination_by dir.length
decreasing_by
  cases dir with
  | nil => simp at *
  | cons a l => simp

/-- `recordSnapshot`: write the new `` `${timestamp}.snapshot` `` file, then
list the directory, sort the names, and evict the oldest names beyond
`MAX_SNAPSHOTS`.  The directory is represented by its file names (snapshot
contents are stored under those names and are not needed here). -/
def recordSnapshot (dir : List String) (timestamp : Nat) : List String :=
  evictOverCap (sortFileNames (writeSnapshotFile dir (snapshotFileName timestamp)))

/-! ### Content helpers -/

/-- JavaScript's `\s` character class (ECMAScript WhiteSpace + LineTerminator). -/
def isJsWhitespace (c : Char) : Bool :=
  c = ' ' || c = '\t' || c = '\n' || c = '\x0B' || c = '\x0C' || c = '\r' ||
  c.val = 0x00A0 || c.val = 0x1680 || (0x2000 ≤ c.val && c.val ≤ 0x200A) ||
  c.val = 0x2028 || c.val = 0x2029 || c.val = 0x202F || c.val = 0x205F ||
  c.val = 0x3000 || c.val = 0xFEFF

/-- The save path's `normalize`: `(value ?? '').replace(/\s+$/g, '')` — strip
the trailing run of whitespace.  (Both call sites pass a `string`, so the
`?? ''` is inert.) -/
def normalizeSavedContent (value : String) : String :=
  String.mk ((value.data.reverse.dropWhile isJsWhitespace).reverse)

/-- `[...content].length`: the number of Unicode code points of the string
(JavaScript string iteration yields one element per code point; a Lean
`Char` is one code point). -/
def jsSpreadLength (content : String) : Nat :=
  content.data.length

/-! ### The store state and the save/autosave operations -/

/-- The on-disk state relevant to one project: `project.json` (or `none`
when absent/corrupt), the committed content files `chapters/<id>.md`, the
autosave cache `autosave/<id>.draft`, and the per-chapter snapshot
directories `timeline/<id>/` (as lists of file names). -/
structure StoreState where
  meta : Option ProjectMeta
  committed : List (String × FileEntry)
  autosave : List (String × FileEntry)
  timeline : List (String × List String)
deriving Repr

/-- A chapter's snapshot directory listing (empty when the directory does
not exist yet). -/
def timelineGet (tl : List (String × List String)) (k : String) : List String :=
  ((tl.find? (fun e => e.1 = k)).map (fun e => e.2)).getD []

/-- Replace (or create) a chapter's snapshot directory listing. -/
def timelineSet (tl : List (String × List String)) (k : String)
    (v : List String) : List (String × List String) :=
  match tl with
  | [] => [(k, v)]
  | (k', v') :: rest =>
    if k' = k then (k', v) :: rest else (k', v') :: timelineSet rest k v

/-- The metadata side effect of `loadProjectMeta` (line 208-210): when the
normalization was `dirty`, the normalized record is persisted.  Operations
that merely read the project (`readProject`) still perform this write. -/
def reloadAfterRead (s : StoreState) (now : Nat) : StoreState :=
  match s.meta with
  | none => s
  | some m =>
    let lr := loadProjectMetaPure m now
    if lr.2 then { s with meta := some lr.1 } else s

/-- The leaf update of `saveChapter` (lines 494-495):
`chapterMeta.words = [...content].length; chapterMeta.updatedAt = Date.now()`. -/
def saveChapterMetaUpdate (now : Nat) (content : String) (c : ChapterMeta) :
    ChapterMeta :=
  (c.setWords (some (jsSpreadLength content))).setUpdatedAt (some now)

/-- The leaf update of `autosaveChapter` (lines 470-472): set `updatedAt`
and `words`, then `refreshAggregateWords(chapterMeta)` on that node alone. -/
def autosaveChapterMetaUpdate (now : Nat) (content : String) (c : ChapterMeta) :
    ChapterMeta :=
  (refreshAggregateWords ((c.setUpdatedAt (some now)).setWords
    (some (jsSpreadLength content)))).1

/-- `saveChapter` (the spec's `commit`): load+normalize the record, locate
the leaf, and compare the committed content with the new content after
stripping trailing whitespace.  On equality the save is a no-op apart from
the read-path normalization persist; otherwise the leaf stats are updated,
aggregates refreshed, the project touched, the metadata and content files
written, a snapshot recorded, and the autosave cache deleted. -/
def saveChapterS (s : StoreState) (now : Nat) (chapterId content : String) :
    StoreState :=
  match s.meta with
  | none => s
  | some m0 =>
    let lr := loadProjectMetaPure m0 now
    let m := lr.1
    let s1 := if lr.2 then { s with meta := some m } else s
    match findChapterMeta (m.chapters.getD []) chapterId with
    | none => s1
    | some _ =>
      let existing := readFileIfExists s1.committed chapterId
      if normalizeSavedContent existing = normalizeSavedContent content then
        reloadAfterRead s1 now
      else
        let chs := (updateFirstChapterMeta (m.chapters.getD []) chapterId
          (saveChapterMetaUpdate now content)).1
        let m1 := refreshProjectAggregates { m with chapters := some chs }
        let m2 := { m1 with updatedAt := some now }
        reloadAfterRead
          { meta := some m2,
            committed := fsWrite s1.committed chapterId ⟨content, now⟩,
            autosave := fsRemove s1.autosave chapterId,
            timeline := timelineSet s1.timeline chapterId
              (recordSnapshot (timelineGet s1.timeline chapterId) now) } now

/-- `autosaveChapter`: write the autosave cache file, then (when the record
loads) update the leaf's stats, touch the project, and persist the metadata
unconditionally.  The dirty re-persist inside `loadProjectMeta` is
immediately overwritten by that unconditional metadata write. -/
def autosaveChapterS (s : StoreState) (now : Nat) (chapterId content : String) :
    StoreState :=
  let s1 := { s with autosave := fsWrite s.autosave chapterId ⟨content, now⟩ }
  match s1.meta with
  | none => s1
  | some m0 =>
    let m := (loadProjectMetaPure m0 now).1
    let chs := (updateFirstChapterMeta (m.chapters.getD []) chapterId
      (autosaveChapterMetaUpdate now content)).1
    { s1 with meta := some { m with chapters := some chs, updatedAt := some now } }

/-! ### Draft reconciliation (`loadChapterWithAutosave`) -/

/-- The leaf content resolution of `loadChapterWithAutosave` (lines 247-262):
stat both files (`mtimeMs: 0` when absent), read the committed content
(`''` when absent), and prefer the autosave content exactly when its mtime is
strictly newer, in which case the pending-autosave timestamp is set to the
autosave mtime; otherwise the timestamp stays `undefined`.  Returns
`(draft, autosaveTimestamp)`. -/
def loadChapterDraft (canonicalFile autosaveFile : Option FileEntry) :
    String × Option Nat :=
  let canonicalMtime := (canonicalFile.map FileEntry.mtimeMs).getD 0
  let autosaveMtime := (autosaveFile.map FileEntry.mtimeMs).getD 0
  let draft := (canonicalFile.map FileEntry.content).getD ""
  if autosaveMtime > canonicalMtime then
    ((autosaveFile.map FileEntry.content).getD "", some autosaveMtime)
  else
    (draft, none)

/-! ### Snapshot listing and project reorder -/

/-- A listed snapshot summary (`ChapterSnapshot`); the `preview` string is
elided (no claim concerns it). -/
structure ChapterSnapshot where
  timestamp : Nat
  words : Nat
deriving Repr

/-- `listSnapshots`: one summary per `<timestamp>.snapshot` file in the
leaf's timeline directory, sorted newest-first.  The directory is given as
`(timestamp, content)` pairs — the `.snapshot` name round-trip
(`` `${t}.snapshot` `` written, `Number(file.replace('.snapshot', ''))`
parsed back) is elided.  Each summary's `words` is `[...content].length`. -/
def listSnapshots (files : List (Nat × String)) : List ChapterSnapshot :=
  (files.map (fun f => { timestamp := f.1, words := jsSpreadLength f.2 : ChapterSnapshot })).insertionSort
    (fun a b => b.timestamp ≤ a.timestamp)

/-- The order computation of `reorderProjects`: keep the supplied ids that
exist, in the supplied order, then append the existing ids not picked, in
their prior order; the result is persisted unconditionally. -/
def reorderProjects (existingIds nextOrder : List String) : List String :=
  let filtered := nextOrder.filter (fun id => id ∈ existingIds)
  let remaining := existingIds.filter (fun id => id ∉ filtered)
  filtered ++ remaining

/-! ### Statement-side helpers -/

/-- A node's contribution to `sumLeafWords`: its own `words ?? 0` when it is
a leaf, otherwise the leaf-word total of its children. -/
def leafContribution (node : ChapterMeta) : Nat :=
  match node with
  | .node _ _ k _ w _ _ _ _ _ children =>
    if k = some .chapter then w.getD 0 else sumLeafWords children

mutual

/-- The aggregate invariant: every `group` node's `words` equals the
leaf-word total of its children, checked on every node the aggregate
recomputation visits (a leaf's children are not visited, mirroring
`refreshAggregateWords` and `sumLeafWords`). -/
def groupWordsOk (node : ChapterMeta) : Bool :=
  match node with
  | .node _ _ k _ w _ _ _ _ _ children =>
    if k = some .chapter then true
    else
      (if k = some .group then w == some (sumLeafWords children) else true) &&
        groupWordsOkList children

/-- `groupWordsOk` over a forest. -/
def groupWordsOkList (nodes : List ChapterMeta) : Bool :=
  match nodes with
  | [] => true
  | c :: rest => groupWordsOk c && groupWordsOkList rest

end

/-- The timeline directory of one leaf after a sequence of commits with the
given `Date.now()` timestamps, starting from an empty directory. -/
def commitSnapshots (timestamps : List Nat) : List String :=
  timestamps.foldl recordSnapshot []

/-- A concrete fully-populated record with a single leaf `c1`, used to
exercise the save path on a closed input. -/
def sampleProjectMeta : ProjectMeta :=
  { id := "p", title := "t", description := some "", createdAt := some 5,
    updatedAt := some 5, stats := { words := 5, characters := 0 },
    chapters := some [ChapterMeta.node ("c1") ("Ch") (some .chapter) none
      (some 5) (some ("outline")) (some ("balanced")) (some ("m"))
      (some ("")) (some 5) []] }

/-- A concrete store state around `sampleProjectMeta`: `c1`'s committed
content is `"hello"`. -/
def sampleStoreState : StoreState :=
  { meta := some sampleProjectMeta,
    committed := [("c1", { content := "hello", mtimeMs := 3 })],
    autosave := [], timeline := [] }

/-! ## Theorems -/

/-- C1: `moveChapter` does NOT reject a move whose target parent is inside
the moved subtree (or is the moved node itself): the subtree is removed, the
re-insert silently fails, and the node is lost.  Moving the group `A`
(with child `B`) under `B` empties the forest, as does moving a lone leaf
`A` under itself — far from being a no-op, the move deletes the subtree. -/
theorem moveChapter_cycle_drops_subtree :
    moveChapter
      [ChapterMeta.node ("A") ("Part I") (some .group) none (some 3) (some ("outline"))
        (some ("balanced")) (some ("m")) (some ("")) (some 1)
        [ChapterMeta.node ("B") ("Ch 1") (some .chapter) none (some 3) (some ("outline"))
          (some ("balanced")) (some ("m")) (some ("")) (some 1) []]]
      ("A") (some ("B")) = some [] ∧
    moveChapter
      [ChapterMeta.node ("A") ("Ch A") (some .chapter) none (some 3) (some ("outline"))
        (some ("balanced")) (some ("m")) (some ("")) (some 1) []]
      ("A") (some ("A")) = some [] := by
  constructor <;>
    simp [moveChapter, removeChapterMeta, removeChapterMetaTop, removeChapterMetaDeep,
      insertChapterMeta, insertChapterMetaAux, refreshAggregateList, refreshAggregateWords,
      ChapterMeta.id]

/-- C2 (counterexample): a record whose top-level fields are all present but
whose single node lacks `updatedAt` loads with `dirty = false` — the node's
timestamp is back-filled in memory (to the document's fallback time `7`) but
the record is NOT persisted, refuting "persists whenever any defaulting
occurred". -/
theorem loadProjectMeta_node_default_not_persisted :
    (loadProjectMetaPure
      { id := "p", title := "t", description := some "", createdAt := some 5,
        updatedAt := some 7, stats := { words := 0, characters := 0 },
        chapters := some [ChapterMeta.node ("c1") ("Ch") (some .chapter) none
          (some 2) (some ("outline")) (some ("balanced")) (some ("m"))
          (some ("")) none []] } 9).2 = false ∧
    (((loadProjectMetaPure
      { id := "p", title := "t", description := some "", createdAt := some 5,
        updatedAt := some 7, stats := { words := 0, characters := 0 },
        chapters := some [ChapterMeta.node ("c1") ("Ch") (some .chapter) none
          (some 2) (some ("outline")) (some ("balanced")) (some ("m"))
          (some ("")) none []] } 9).1.chapters.getD []).map
      ChapterMeta.updatedAt) = [some 7] :=
  ⟨rfl, rfl⟩

/-- C2 (amended): `loadProjectMeta` persists the normalized record exactly
when one of the four TOP-LEVEL defaults fired — `createdAt` falsy,
`updatedAt` falsy, `description` not a string, or `chapters` not an array.
Per-node defaulting performed by `normalizeChapterTree` never sets the
dirty flag on its own. -/
theorem loadProjectMeta_persists_iff_top_level_default :
    ∀ (meta : ProjectMeta) (now : Nat),
      (loadProjectMetaPure meta now).2 =
        (jsFalsyNat meta.createdAt || jsFalsyNat meta.updatedAt ||
          meta.description.isNone || meta.chapters.isNone) :=
  fun _ _ => rfl

/-- C5: on load, the autosave draft wins over the committed content exactly
when the autosave file's mtime is strictly newer (absent files stat as mtime
0), in which case the pending-autosave timestamp is the autosave mtime;
otherwise the committed content is returned and the timestamp is cleared.
The concrete conjuncts pin the strictness: a tie keeps the committed
content. -/
theorem loadChapterDraft_autosave_iff_strictly_newer :
    (∀ (canonicalFile autosaveFile : Option FileEntry),
      loadChapterDraft canonicalFile autosaveFile =
        if (autosaveFile.map FileEntry.mtimeMs).getD 0 >
            (canonicalFile.map FileEntry.mtimeMs).getD 0 then
          ((autosaveFile.map FileEntry.content).getD (""),
            some ((autosaveFile.map FileEntry.mtimeMs).getD 0))
        else
          ((canonicalFile.map FileEntry.content).getD (""), none)) ∧
    loadChapterDraft (some ⟨"committed", 5⟩) (some ⟨"draft", 6⟩) = ("draft", some 6) ∧
    loadChapterDraft (some ⟨"committed", 5⟩) (some ⟨"draft", 5⟩) = ("committed", none) ∧
    loadChapterDraft none (some ⟨"draft", 1⟩) = ("draft", some 1) ∧
    loadChapterDraft (some ⟨"committed", 5⟩) none = ("committed", none) :=
  ⟨fun _ _ => rfl, rfl, rfl, rfl, rfl⟩

/-- C9: `autosaveChapter` writes the autosave cache file (and metadata) but
never touches the committed content files and never records a snapshot: both
are untouched by the operation for every store state, chapter and content. -/
theorem autosaveChapter_preserves_committed_and_timeline :
    ∀ (s : StoreState) (now : Nat) (chapterId content : String),
      (autosaveChapterS s now chapterId content).committed = s.committed ∧
      (autosaveChapterS s now chapterId content).timeline = s.timeline ∧
      (autosaveChapterS s now chapterId content).autosave =
        fsWrite s.autosave chapterId { content := content, mtimeMs := now } := by
  intro s now chapterId content
  cases hm : s.meta <;> simp [autosaveChapterS, hm]

/-- C8: `reorderProjects` produces exactly the supplied ids that still
exist, in the supplied order, followed by every existing id omitted from the
list, in their prior order; every existing id is preserved.  The concrete
conjunct shows an omitted known id landing at the end. -/
theorem reorderProjects_normalized_order :
    (∀ (existingIds nextOrder : List String),
      reorderProjects existingIds nextOrder =
        nextOrder.filter (fun id => id ∈ existingIds) ++
          existingIds.filter (fun id => id ∉ nextOrder)) ∧
    (∀ (existingIds nextOrder : List String) (id : String),
      id ∈ existingIds → id ∈ reorderProjects existingIds nextOrder) ∧
    reorderProjects ["a", "b"] ["b"] = ["b", "a"] := by
  refine ⟨?_, ?_, by decide⟩
  · intro existingIds nextOrder
    show (nextOrder.filter fun id => id ∈ existingIds) ++ _ = _
    congr 1
    refine List.filter_congr ?_
    intro x hx
    simp only [decide_eq_decide, List.mem_filter, decide_eq_true_eq]
    tauto
  · intro existingIds nextOrder id hid
    by_cases hin : id ∈ nextOrder
    · exact List.mem_append_left _ (List.mem_filter.mpr ⟨hin, by simpa using hid⟩)
    · refine List.mem_append_right _ (List.mem_filter.mpr ⟨hid, ?_⟩)
      simp only [decide_eq_true_eq, List.mem_filter]
      exact fun hmem => hin hmem.1

/-- C8 witness: the membership-preservation part applied at a concrete
input. -/
theorem reorderProjects_normalized_order_witness :
    "a" ∈ reorderProjects ["a", "b"] ["b"] :=
  reorderProjects_normalized_order.2.1 ["a", "b"] ["b"] "a" (by decide)

/-- `sumLeafWords` on a cons is the head's contribution plus the tail's. -/
theorem sumLeafWords_cons (c : ChapterMeta) (rest : List ChapterMeta) :
    sumLeafWords (c :: rest) = leafContribution c + sumLeafWords rest := by
  cases c
  simp [sumLeafWords, leafContribution]

mutual

/-- After `refreshAggregateWords`, a node satisfies the group-words
invariant, and its leaf contribution equals the returned total. -/
theorem refresh_ok_node (node : ChapterMeta) :
    groupWordsOk (refreshAggregateWords node).1 = true ∧
    leafContribution (refreshAggregateWords node).1 = (refreshAggregateWords node).2 := by
  cases node with
  | node i t k v w st p m sm u children =>
    by_cases hk : k = some StoryNodeKind.chapter
    · simp [refreshAggregateWords, hk, groupWordsOk, leafContribution]
    · have h := refresh_ok_list children
      by_cases hg : k = some StoryNodeKind.group <;>
        simp [refreshAggregateWords, hk, hg, groupWordsOk, leafContribution, h.1, h.2]

/-- After `refreshAggregateList`, every node satisfies the group-words
invariant and the forest's leaf-word total equals the returned total. -/
theorem refresh_ok_list (nodes : List ChapterMeta) :
    groupWordsOkList (refreshAggregateList nodes).1 = true ∧
    sumLeafWords (refreshAggregateList nodes).1 = (refreshAggregateList nodes).2 := by
  cases nodes with
  | nil => simp [refreshAggregateList, groupWordsOkList, sumLeafWords]
  | cons c rest =>
    have hc := refresh_ok_node c
    have hr := refresh_ok_list rest
    simp [refreshAggregateList, groupWordsOkList, sumLeafWords_cons, hc.1, hc.2, hr.1, hr.2]

end

/-- C6: after the aggregate recomputation, every `group` node's word count
equals the leaf-word total of its children (equivalently, of its leaf
descendants); in particular a `group` with no children gets word count 0. -/
theorem refreshAggregate_group_invariant :
    (∀ (nodes : List ChapterMeta),
      groupWordsOkList (refreshAggregateList nodes).1 = true) ∧
    (∀ (i t : String) (v : Option String) (w : Option Nat)
        (st p m sm : Option String) (u : Option Nat),
      ((refreshAggregateWords
        (ChapterMeta.node i t (some .group) v w st p m sm u [])).1).words = some 0) := by
  constructor
  · exact fun nodes => (refresh_ok_list nodes).1
  · intro i t v w st p m sm u
    simp [refreshAggregateWords, refreshAggregateList, ChapterMeta.words]

/-- C10: every word count the store records is the number of Unicode code
points of the content string, not a count of words: the leaf update on
commit records `[...content].length`, so does the leaf update on autosave,
and `listSnapshots` recomputes the same quantity from each snapshot's
content.  `"hello world"` — two words — is recorded as 11. -/
theorem recorded_words_are_codepoints :
    (∀ (now : Nat) (content : String) (c : ChapterMeta),
      (saveChapterMetaUpdate now content c).words = some content.data.length) ∧
    (∀ (now : Nat) (content : String) (c : ChapterMeta),
      c.kind = some StoryNodeKind.chapter →
        (autosaveChapterMetaUpdate now content c).words = some content.data.length) ∧
    (∀ (files : List (Nat × String)) (t : Nat) (cont : String),
      (t, cont) ∈ files →
        ∃ e ∈ listSnapshots files, e.timestamp = t ∧ e.words = cont.data.length) ∧
    jsSpreadLength ("hello world") = 11 := by
  refine ⟨?_, ?_, ?_, by decide⟩
  · intro now content c
    cases c
    rfl
  · intro now content c hk
    cases c with
    | node i t k v w st p m sm u children =>
      simp only [ChapterMeta.kind] at hk
      simp [autosaveChapterMetaUpdate, ChapterMeta.setUpdatedAt, ChapterMeta.setWords,
        refreshAggregateWords, hk, ChapterMeta.words, jsSpreadLength]
  · intro files t cont hmem
    refine ⟨{ timestamp := t, words := cont.data.length }, ?_, rfl, rfl⟩
    have hperm := List.perm_insertionSort
      (fun a b : ChapterSnapshot => b.timestamp ≤ a.timestamp)
      (files.map (fun f => { timestamp := f.1, words := jsSpreadLength f.2 : ChapterSnapshot }))
    exact hperm.mem_iff.mpr
      (List.mem_map_of_mem
        (fun f => { timestamp := f.1, words := jsSpreadLength f.2 : ChapterSnapshot }) hmem)

/-- The eviction loop drops exactly the over-cap prefix of the (sorted)
listing. -/
theorem evictOverCap_eq_drop (l : List String) :
    evictOverCap l = l.drop (l.length - MAX_SNAPSHOTS) := by
  have key : ∀ (n : Nat) (l : List String), l.length ≤ n →
      evictOverCap l = l.drop (l.length - MAX_SNAPSHOTS) := by
    intro n
    induction n with
    | zero =>
      intro l hl
      have : l = [] := List.eq_nil_of_length_eq_zero (Nat.le_zero.mp hl)
      subst this
      rw [evictOverCap]
      simp [MAX_SNAPSHOTS]
    | succ n ihn =>
      intro l hl
      rw [evictOverCap]
      split
      · next h =>
        cases l with
        | nil => simp [MAX_SNAPSHOTS] at h
        | cons a t =>
          simp only [List.length_cons] at h hl
          simp only [List.tail_cons]
          rw [ihn t (by omega)]
          have : t.length + 1 - MAX_SNAPSHOTS = (t.length - MAX_SNAPSHOTS) + 1 := by omega
          simp only [List.length_cons, this, List.drop_succ_cons]
      · next h =>
        have : l.length - MAX_SNAPSHOTS = 0 := by omega
        rw [this, List.drop_zero]
  exact key l.length l le_rfl

/-- After a run of commits whose snapshot file names are strictly increasing
(chronological order agrees with the lexicographic file-name order the
eviction uses — true for the equal-width millisecond timestamps of
successive commits), the timeline holds exactly the last
`MAX_SNAPSHOTS` commits' files, in order. -/
theorem commitSnapshots_eq_drop (ts : List Nat)
    (hmono : ts.Pairwise (fun a b => snapshotFileName a < snapshotFileName b)) :
    commitSnapshots ts = (ts.drop (ts.length - MAX_SNAPSHOTS)).map snapshotFileName := by
  induction ts using List.reverseRecOn with
  | nil => simp [commitSnapshots]
  | append_singleton l a ih =>
    rw [List.pairwise_append] at hmono
    obtain ⟨hl, -, hcross⟩ := hmono
    have hlt : ∀ x ∈ l, snapshotFileName x < snapshotFileName a := by
      intro x hx
      exact hcross x hx a (by simp)
    have hdir := ih hl
    have hstep : commitSnapshots (l ++ [a]) = recordSnapshot (commitSnapshots l) a := by
      simp [commitSnapshots, List.foldl_append]
    set dir := commitSnapshots l with hdirdef
    -- the new name is not in the directory
    have hnotmem : snapshotFileName a ∉ dir := by
      rw [hdir]
      intro hmem
      obtain ⟨x, hx, hfx⟩ := List.mem_map.mp hmem
      have hxl : x ∈ l := List.mem_of_mem_drop hx
      exact absurd (hfx ▸ hlt x hxl) (lt_irrefl _)
    -- the directory with the new name appended is already sorted
    have hsorted : List.Sorted (fun x y : String => x ≤ y) (dir ++ [snapshotFileName a]) := by
      rw [hdir, List.Sorted, List.pairwise_append]
      refine ⟨?_, by simp, ?_⟩
      · have := (List.pairwise_map.mpr hl).sublist
          ((List.drop_sublist (l.length - MAX_SNAPSHOTS) l).map snapshotFileName)
        exact this.imp le_of_lt
      · intro x hx y hy
        obtain ⟨x', hx', hfx'⟩ := List.mem_map.mp hx
        have : y = snapshotFileName a := by simpa using hy
        subst this
        exact le_of_lt (hfx' ▸ hlt x' (List.mem_of_mem_drop hx'))
    rw [hstep, recordSnapshot, writeSnapshotFile, if_neg hnotmem, sortFileNames,
      hsorted.insertionSort_eq, evictOverCap_eq_drop, hdir]
    have hdlen : (List.map snapshotFileName (l.drop (l.length - MAX_SNAPSHOTS))).length =
        l.length - (l.length - MAX_SNAPSHOTS) := by
      simp
    by_cases hL : l.length < MAX_SNAPSHOTS
    · have h0 : l.length - MAX_SNAPSHOTS = 0 := by omega
      have h1 : (l ++ [a]).length - MAX_SNAPSHOTS = 0 := by
        simp only [List.length_append, List.length_cons, List.length_nil]
        omega
      simp [h0, h1]
    · have h20 : (List.map snapshotFileName (l.drop (l.length - MAX_SNAPSHOTS)) ++
          [snapshotFileName a]).length - MAX_SNAPSHOTS = 1 := by
        simp only [List.length_append, List.length_map, List.length_drop,
          List.length_cons, List.length_nil]
        omega
      rw [h20]
      have h1 : (l ++ [a]).length - MAX_SNAPSHOTS = (l.length - MAX_SNAPSHOTS) + 1 := by
        simp only [List.length_append, List.length_cons, List.length_nil]
        omega
      rw [h1]
      have hM : MAX_SNAPSHOTS = 20 := rfl
      have h2 : (l ++ [a]).drop ((l.length - MAX_SNAPSHOTS) + 1) =
          l.drop ((l.length - MAX_SNAPSHOTS) + 1) ++ [a] := by
        refine List.drop_append_of_le_length ?_
        omega
      rw [h2]
      have h3 : (List.map snapshotFileName (l.drop (l.length - MAX_SNAPSHOTS)) ++
          [snapshotFileName a]).drop 1 =
          (List.map snapshotFileName (l.drop (l.length - MAX_SNAPSHOTS))).drop 1 ++
            [snapshotFileName a] := by
        refine List.drop_append_of_le_length ?_
        simp only [List.length_map, List.length_drop]
        omega
      rw [h3, ← List.map_drop, List.drop_drop, List.map_append]
      have h4 : l.length - MAX_SNAPSHOTS + 1 = 1 + (l.length - MAX_SNAPSHOTS) := by omega
      rw [h4]
      simp

/-- C4: after `N > 20` successive snapshot-recording commits (distinct
contents, strictly increasing timestamp-derived file names), exactly
`MAX_SNAPSHOTS = 20` snapshot files remain in the leaf's timeline, and they
are the files of the 20 most recent commits, oldest names having been
evicted in file-name order. -/
theorem retention_cap_20_most_recent (ts : List Nat)
    (hmono : ts.Pairwise (fun a b => snapshotFileName a < snapshotFileName b))
    (hlen : ts.length > MAX_SNAPSHOTS) :
    commitSnapshots ts = (ts.drop (ts.length - MAX_SNAPSHOTS)).map snapshotFileName ∧
    (commitSnapshots ts).length = MAX_SNAPSHOTS := by
  refine ⟨commitSnapshots_eq_drop ts hmono, ?_⟩
  rw [commitSnapshots_eq_drop ts hmono]
  simp
  omega

/-- C4 witness: 21 commits at timestamps 100..120 keep the last 20. -/
theorem retention_cap_20_most_recent_witness :
    commitSnapshots [100, 101, 102, 103, 104, 105, 106, 107, 108, 109, 110, 111,
        112, 113, 114, 115, 116, 117, 118, 119, 120] =
      (([100, 101, 102, 103, 104, 105, 106, 107, 108, 109, 110, 111, 112, 113,
        114, 115, 116, 117, 118, 119, 120] : List Nat).drop
        (([100, 101, 102, 103, 104, 105, 106, 107, 108, 109, 110, 111, 112, 113,
          114, 115, 116, 117, 118, 119, 120] : List Nat).length - MAX_SNAPSHOTS)).map
        snapshotFileName ∧
    (commitSnapshots [100, 101, 102, 103, 104, 105, 106, 107, 108, 109, 110, 111,
        112, 113, 114, 115, 116, 117, 118, 119, 120]).length = MAX_SNAPSHOTS :=
  retention_cap_20_most_recent _
    ((by decide : List.Pairwise
        (fun a b : Nat => (snapshotFileName a).toList < (snapshotFileName b).toList)
        [100, 101, 102, 103, 104, 105, 106, 107, 108, 109, 110, 111, 112, 113,
          114, 115, 116, 117, 118, 119, 120]).imp
      (fun h => String.lt_iff_toList_lt.mpr h))
    (by decide)

/-- Setting a fresh key on the map model appends the entry. -/
theorem mapSet_append_of_not_mem (m : List (String × ChapterMeta)) (k : String)
    (v : ChapterMeta) (h : ∀ e ∈ m, e.1 ≠ k) : mapSet m k v = m ++ [(k, v)] := by
  induction m with
  | nil => rfl
  | cons e rest ih =>
    obtain ⟨k', v'⟩ := e
    have hk : k' ≠ k := h (k', v') (List.mem_cons_self _ _)
    rw [mapSet, if_neg hk, ih (fun e he => h e (List.mem_cons_of_mem _ he))]
    simp

/-- Building the id map from children with distinct ids yields the children
as an association list, in order. -/
theorem foldl_mapSet_eq (cs : List ChapterMeta) (acc : List (String × ChapterMeta))
    (h : (acc.map Prod.fst ++ cs.map ChapterMeta.id).Nodup) :
    cs.foldl (fun m c => mapSet m c.id c) acc = acc ++ cs.map (fun c => (c.id, c)) := by
  induction cs generalizing acc with
  | nil => simp
  | cons c rest ih =>
    rw [List.map_cons, List.append_cons] at h
    have hdisj := (List.nodup_append.mp h).2.2
    have hnot : ∀ e ∈ acc, e.1 ≠ c.id := by
      intro e he heq
      have h2 := List.nodup_append.mp (List.nodup_append.mp h).1
      exact h2.2.2 (List.mem_map_of_mem Prod.fst he) (by simp [heq])
    rw [List.foldl_cons, mapSet_append_of_not_mem acc c.id c hnot,
      ih (acc ++ [(c.id, c)]) (by simpa using h)]
    simp

/-- `buildIdMap` on children with distinct ids is the plain association
list. -/
theorem buildIdMap_eq_map (children : List ChapterMeta)
    (h : (children.map ChapterMeta.id).Nodup) :
    buildIdMap children = children.map (fun c => (c.id, c)) := by
  have := foldl_mapSet_eq children [] (by simpa using h)
  simpa [buildIdMap] using this

/-- `mapGet` on the association list is `find?` by id. -/
theorem mapGet_map_pair (cs : List ChapterMeta) (i : String) :
    mapGet (cs.map (fun c => (c.id, c))) i = cs.find? (fun c => c.id = i) := by
  induction cs with
  | nil => rfl
  | cons c rest ih =>
    by_cases h : c.id = i
    · rw [List.map_cons, mapGet, if_pos h, List.find?_cons_of_pos _ (by simpa using h)]
    · rw [List.map_cons, mapGet, if_neg h, List.find?_cons_of_neg _ (by simpa using h), ih]

/-- `mapDelete` on an association list with distinct keys removes exactly
the matching entries. -/
theorem mapDelete_map_pair (cs : List ChapterMeta) (i : String)
    (h : (cs.map ChapterMeta.id).Nodup) :
    mapDelete (cs.map (fun c => (c.id, c))) i =
      (cs.filter (fun c => ¬ c.id = i)).map (fun c => (c.id, c)) := by
  induction cs with
  | nil => rfl
  | cons c rest ih =>
    rw [List.map_cons, List.nodup_cons] at h
    by_cases hc : c.id = i
    · rw [List.map_cons, mapDelete, if_pos hc,
        List.filter_cons_of_neg (by simpa using hc)]
      have : rest.filter (fun c => ¬ (ChapterMeta.id c = i)) = rest := by
        refine List.filter_eq_self.mpr ?_
        intro a ha
        have : a.id ≠ i := by
          intro heq
          refine h.1 ?_
          rw [hc, ← heq]
          exact List.mem_map_of_mem ChapterMeta.id ha
        simpa using this
      rw [this]
    · rw [List.map_cons, mapDelete, if_neg hc,
        List.filter_cons_of_pos (by simpa using hc), List.map_cons, ih h.2]

/-- `find?` commutes with a filter that keeps every hit of the search
predicate. -/
theorem find?_filter_of_imp (l : List ChapterMeta) (p q : ChapterMeta → Bool)
    (h : ∀ x, q x = true → p x = true) :
    (l.filter p).find? q = l.find? q := by
  induction l with
  | nil => rfl
  | cons a rest ih =>
    by_cases hp : p a = true
    · rw [List.filter_cons_of_pos hp]
      by_cases hq : q a = true
      · rw [List.find?_cons_of_pos _ hq, List.find?_cons_of_pos _ hq]
      · rw [List.find?_cons_of_neg _ hq, List.find?_cons_of_neg _ hq, ih]
    · have hq : ¬ q a = true := fun hqa => hp (h a hqa)
      rw [List.filter_cons_of_neg hp, List.find?_cons_of_neg _ hq, ih]

/-- With distinct ids, searching a member's id finds that member. -/
theorem find?_id_self (cs : List ChapterMeta) (c : ChapterMeta)
    (h : (cs.map ChapterMeta.id).Nodup) (hc : c ∈ cs) :
    cs.find? (fun x => x.id = c.id) = some c := by
  induction cs with
  | nil => cases hc
  | cons a rest ih =>
    rw [List.map_cons, List.nodup_cons] at h
    rcases List.mem_cons.mp hc with rfl | hmem
    · rw [List.find?_cons_of_pos _ (by simp)]
    · have hne : ¬ (a.id = c.id) := by
        intro he
        exact h.1 (he ▸ List.mem_map_of_mem ChapterMeta.id hmem)
      rw [List.find?_cons_of_neg _ (by simpa using hne), ih h.2 hmem]

/-- The `order.forEach` loop on an association list of distinct-id children:
the picked prefix is the order's hits in order, the leftover map is the
children not named by the order, in their prior order. -/
theorem reorderLoop_spec (order : List String) (cs : List ChapterMeta)
    (hids : (cs.map ChapterMeta.id).Nodup) (hord : order.Nodup) :
    reorderLoop (cs.map (fun c => (c.id, c))) order =
      (order.filterMap (fun i => cs.find? (fun c => c.id = i)),
        (cs.filter (fun c => c.id ∉ order)).map (fun c => (c.id, c))) := by
  induction order generalizing cs with
  | nil =>
    rw [reorderLoop]
    simp
  | cons i rest ih =>
    rw [List.nodup_cons] at hord
    rw [reorderLoop, mapGet_map_pair]
    cases hfind : cs.find? (fun c => c.id = i) with
    | none =>
      have hnone : ∀ c ∈ cs, ¬ (c.id = i) := by
        intro c hcmem
        simpa using List.find?_eq_none.mp hfind c hcmem
      rw [ih cs hids hord.2]
      refine Prod.ext ?_ ?_
      · simp only [List.filterMap_cons, hfind]
      · show _ = (cs.filter (fun c => c.id ∉ i :: rest)).map _
        have : cs.filter (fun c => c.id ∉ rest) = cs.filter (fun c => c.id ∉ i :: rest) := by
          refine List.filter_congr ?_
          intro c hcmem
          simp only [decide_eq_decide, List.mem_cons, not_or]
          exact ⟨fun hr => ⟨hnone c hcmem, hr⟩, fun hp => hp.2⟩
        rw [this]
    | some c0 =>
      have hc0p : c0.id = i := by simpa using List.find?_some hfind
      rw [mapDelete_map_pair cs i hids]
      have hids' : ((cs.filter (fun c => ¬ c.id = i)).map ChapterMeta.id).Nodup :=
        List.Nodup.sublist ((List.filter_sublist cs).map ChapterMeta.id) hids
      rw [ih _ hids' hord.2]
      refine Prod.ext ?_ ?_
      · simp only [List.filterMap_cons, hfind]
        refine congrArg (fun l => c0 :: l) (List.filterMap_congr ?_)
        intro i' hi'
        have hne : i' ≠ i := fun he => hord.1 (he ▸ hi')
        refine find?_filter_of_imp cs _ _ ?_
        intro x hx
        have hxi : x.id = i' := by simpa using hx
        simpa using (fun he => hne (hxi ▸ he) : ¬ x.id = i)
      · show _ = (cs.filter (fun c => c.id ∉ i :: rest)).map _
        rw [List.filter_filter]
        refine congrArg _ (List.filter_congr ?_)
        intro c hcmem
        by_cases h1 : c.id = i <;> by_cases h2 : c.id ∈ rest <;>
          simp [h1, h2, List.mem_cons]

/-- Looking every member's id up in order reproduces the list (distinct
ids). -/
theorem filterMap_find_over_ids (cs : List ChapterMeta)
    (h : (cs.map ChapterMeta.id).Nodup) :
    (cs.map ChapterMeta.id).filterMap (fun i => cs.find? (fun c => c.id = i)) = cs := by
  induction cs with
  | nil => rfl
  | cons a rest ih =>
    rw [List.map_cons, List.nodup_cons] at h
    have hfa : (a :: rest).find? (fun c => c.id = a.id) = some a :=
      List.find?_cons_of_pos _ (by simp)
    simp only [List.map_cons, List.filterMap_cons, hfa]
    refine congrArg (fun l => a :: l) ?_
    have hcong : (rest.map ChapterMeta.id).filterMap
          (fun i => (a :: rest).find? (fun c => c.id = i)) =
        (rest.map ChapterMeta.id).filterMap (fun i => rest.find? (fun c => c.id = i)) := by
      refine List.filterMap_congr ?_
      intro i hi
      have hne : ¬ (a.id = i) := fun he => h.1 (he ▸ hi)
      rw [List.find?_cons_of_neg _ (by simpa using hne)]
    rw [hcong, ih h.2]

mutual

/-- Updating the first depth-first match rewrites exactly the node
`findChapterMeta` returns (provided `f` preserves ids), and the update's
success flag mirrors the search's. -/
theorem updateFirst_find (nodes : List ChapterMeta) (cid : String)
    (f : ChapterMeta → ChapterMeta) (hf : ∀ x, (f x).id = x.id) :
    findChapterMeta (updateFirstChapterMeta nodes cid f).1 cid =
        (findChapterMeta nodes cid).map f ∧
      (updateFirstChapterMeta nodes cid f).2 = (findChapterMeta nodes cid).isSome := by
  match nodes with
  | [] => simp [updateFirstChapterMeta, findChapterMeta]
  | node :: rest =>
    have hnode := updateFirst_find_node node cid f hf
    have hrest := updateFirst_find rest cid f hf
    by_cases hid : node.id = cid
    · have hRHS : findChapterMeta (node :: rest) cid = some node := by
        rw [findChapterMeta, if_pos hid]
      have hLHS : findChapterMeta (f node :: rest) cid = some (f node) := by
        rw [findChapterMeta, if_pos (show (f node).id = cid by rw [hf node]; exact hid)]
      rw [updateFirstChapterMeta, if_pos hid]
      dsimp only
      rw [hLHS, hRHS]
      simp
    · rcases hun : updateFirstChapterMetaNode node cid f with ⟨n', b⟩
      rw [hun] at hnode
      dsimp only at hnode
      have hRHS : findChapterMeta (node :: rest) cid =
          match findChapterMetaChildren node cid with
          | some m => some m
          | none => findChapterMeta rest cid := by
        rw [findChapterMeta, if_neg hid]
      cases hfc : findChapterMetaChildren node cid with
      | some c =>
        rw [hfc] at hnode hRHS
        have hb : b = true := by simpa using hnode.2.1
        subst hb
        rw [updateFirstChapterMeta, if_neg hid, hun]
        dsimp only
        have hn'id : ¬ n'.id = cid := by
          rw [hnode.2.2]
          exact hid
        have hfc' : findChapterMetaChildren n' cid = some (f c) := by
          simpa using hnode.1
        have hLHS : findChapterMeta (n' :: rest) cid = some (f c) := by
          rw [findChapterMeta, if_neg hn'id, hfc']
        rw [hLHS, hRHS]
        simp
      | none =>
        rw [hfc] at hnode hRHS
        have hb : b = false := by simpa using hnode.2.1
        subst hb
        rw [updateFirstChapterMeta, if_neg hid, hun]
        dsimp only
        have hLHS : findChapterMeta (node :: (updateFirstChapterMeta rest cid f).1) cid =
            findChapterMeta (updateFirstChapterMeta rest cid f).1 cid := by
          rw [findChapterMeta, if_neg hid, hfc]
        rw [hLHS, hRHS, hrest.1]
        exact ⟨rfl, hrest.2⟩

/-- The node-level companion of `updateFirst_find`. -/
theorem updateFirst_find_node (node : ChapterMeta) (cid : String)
    (f : ChapterMeta → ChapterMeta) (hf : ∀ x, (f x).id = x.id) :
    findChapterMetaChildren (updateFirstChapterMetaNode node cid f).1 cid =
        (findChapterMetaChildren node cid).map f ∧
      (updateFirstChapterMetaNode node cid f).2 =
        (findChapterMetaChildren node cid).isSome ∧
      (updateFirstChapterMetaNode node cid f).1.id = node.id := by
  cases node with
  | node i t k v w st p m sm u children =>
    have h := updateFirst_find children cid f hf
    refine ⟨?_, ?_, ?_⟩
    · rw [updateFirstChapterMetaNode, findChapterMetaChildren, findChapterMetaChildren]
      exact h.1
    · rw [updateFirstChapterMetaNode, findChapterMetaChildren]
      exact h.2
    · rw [updateFirstChapterMetaNode, ChapterMeta.id, ChapterMeta.id]

end

/-- C7: on children with distinct ids and a duplicate-free order list,
`reorderList` produces exactly: the children named by the order, in the
order's order (ids naming no child are skipped), followed by the children
not named, in their prior relative order; no child is dropped; and
reordering by the current id sequence is the identity.  At the forest level,
a root-level `reorderChapterChildren` installs exactly this sequence as the
root level, and a parent-level one installs it as the found parent's
children. -/
theorem reorderSiblings_child_sequence :
    ∀ (children : List ChapterMeta) (order : List String),
      (children.map ChapterMeta.id).Nodup → order.Nodup →
      (reorderList children order =
          order.filterMap (fun i => children.find? (fun c => c.id = i)) ++
            children.filter (fun c => c.id ∉ order)) ∧
      (∀ c ∈ children, c ∈ reorderList children order) ∧
      reorderList children (children.map ChapterMeta.id) = children ∧
      (reorderChapterChildren children none order).1 = reorderList children order ∧
      (∀ (nodes : List ChapterMeta) (pid : String) (parent : ChapterMeta),
        findChapterMeta nodes pid = some parent →
        findChapterMeta (reorderChapterChildren nodes (some pid) order).1 pid =
          some (parent.setChildren (reorderList parent.children order))) := by
  intro children order hids hord
  have hm : ∀ (ord : List String), ord.Nodup →
      reorderList children ord =
        ord.filterMap (fun i => children.find? (fun c => c.id = i)) ++
          children.filter (fun c => c.id ∉ ord) := by
    intro ord hordn
    show (reorderLoop (buildIdMap children) ord).1 ++
        (reorderLoop (buildIdMap children) ord).2.map (fun e => e.2) = _
    rw [buildIdMap_eq_map children hids, reorderLoop_spec ord children hids hordn]
    simp only [List.map_map, Function.comp]
    rw [show ((fun (e : String × ChapterMeta) => e.2) ∘ fun c => (c.id, c)) =
        (fun c => c) from rfl, List.map_id']
  refine ⟨hm order hord, ?_, ?_, rfl, ?_⟩
  · intro c hc
    rw [hm order hord]
    by_cases hin : c.id ∈ order
    · refine List.mem_append_left _ ?_
      exact List.mem_filterMap.mpr ⟨c.id, hin, find?_id_self children c hids hc⟩
    · refine List.mem_append_right _ ?_
      exact List.mem_filter.mpr ⟨hc, by simpa using hin⟩
  · rw [hm (children.map ChapterMeta.id) hids, filterMap_find_over_ids children hids]
    have hnil : children.filter (fun c => c.id ∉ children.map ChapterMeta.id) = [] := by
      refine List.filter_eq_nil_iff.mpr ?_
      intro c hc
      simp [List.mem_map_of_mem ChapterMeta.id hc]
    rw [hnil, List.append_nil]
  · intro nodes pid parent hfound
    rw [reorderChapterChildren]
    dsimp only
    rw [hfound]
    have := (updateFirst_find nodes pid
      (fun n => n.setChildren (reorderList parent.children order))
      (fun x => by cases x; rfl)).1
    rw [this, hfound]
    rfl

/-- C7 witness: the no-drop part applied at a concrete forest and order. -/
theorem reorderSiblings_child_sequence_witness :
    ChapterMeta.node ("c1") ("A") (some .chapter) none (some 1) (some ("outline"))
        (some ("balanced")) (some ("m")) (some ("")) (some 1) [] ∈
      reorderList
        [ChapterMeta.node ("c1") ("A") (some .chapter) none (some 1) (some ("outline"))
          (some ("balanced")) (some ("m")) (some ("")) (some 1) [],
         ChapterMeta.node ("c2") ("B") (some .chapter) none (some 2) (some ("outline"))
          (some ("balanced")) (some ("m")) (some ("")) (some 1) []]
        ["c2"] :=
  (reorderSiblings_child_sequence
    [ChapterMeta.node ("c1") ("A") (some .chapter) none (some 1) (some ("outline"))
      (some ("balanced")) (some ("m")) (some ("")) (some 1) [],
     ChapterMeta.node ("c2") ("B") (some .chapter) none (some 2) (some ("outline"))
      (some ("balanced")) (some ("m")) (some ("")) (some 1) []]
    ["c2"] (by decide) (by decide)).2.1 _ (by simp)

/-- Re-loading an already-normalized record is never dirty (for a nonzero
clock): all four top-level defaults are filled by the first load. -/
theorem loadPure_clean_after_load (m0 : ProjectMeta) (now now' : Nat) (h : ¬ now = 0) :
    (loadProjectMetaPure ((loadProjectMetaPure m0 now).1) now').2 = false := by
  have h1 : (loadProjectMetaPure m0 now).1.createdAt =
      (if jsFalsyNat m0.createdAt then some now else m0.createdAt) := rfl
  have h2 : (loadProjectMetaPure m0 now).1.updatedAt =
      (if jsFalsyNat m0.updatedAt then
        some ((if jsFalsyNat m0.createdAt then some now else m0.createdAt).getD now)
      else m0.updatedAt) := rfl
  have hd : (loadProjectMetaPure ((loadProjectMetaPure m0 now).1) now').2 =
      (jsFalsyNat (loadProjectMetaPure m0 now).1.createdAt ||
        jsFalsyNat (loadProjectMetaPure m0 now).1.updatedAt ||
        ((loadProjectMetaPure m0 now).1.description).isNone ||
        ((loadProjectMetaPure m0 now).1.chapters).isNone) := rfl
  have hcknonzero : ∀ n, (if jsFalsyNat m0.createdAt then some now else m0.createdAt) = some n →
      ¬ n = 0 := by
    intro n hn
    by_cases hf : jsFalsyNat m0.createdAt
    · rw [if_pos hf] at hn
      cases hn
      exact h
    · rw [if_neg hf] at hn
      intro hzero
      subst hzero
      exact hf (by rw [hn]; rfl)
  have hcfalse : jsFalsyNat (loadProjectMetaPure m0 now).1.createdAt = false := by
    rw [h1]
    by_cases hf : jsFalsyNat m0.createdAt
    · rw [if_pos hf]
      simpa [jsFalsyNat] using h
    · rw [if_neg hf]
      simpa using hf
  have hufalse : jsFalsyNat (loadProjectMetaPure m0 now).1.updatedAt = false := by
    rw [h2]
    by_cases hf : jsFalsyNat m0.updatedAt
    · rw [if_pos hf]
      cases hck : (if jsFalsyNat m0.createdAt then some now else m0.createdAt) with
      | none =>
        simp [hck, jsFalsyNat]
        exact fun hzero => h hzero
      | some n =>
        have := hcknonzero n hck
        simp [hck, jsFalsyNat]
        exact fun hzero => this hzero
    · rw [if_neg hf]
      simpa using hf
  rw [hd, hcfalse, hufalse]
  rfl

/-- C3: when the committed content and the new content agree after trailing
whitespace stripping, `saveChapter` is a no-op: no committed-file write, no
snapshot, no autosave deletion, and no `touch` of any timestamp — the store
is left exactly as a pure (read-only) load normalization leaves it.  The
final conjunct makes explicit that this normalization never bumps a present
nonzero document timestamp. -/
theorem commit_noop_on_trailing_whitespace_equal :
    ∀ (s : StoreState) (m0 : ProjectMeta) (now : Nat) (chapterId content : String),
      s.meta = some m0 →
      ¬ now = 0 →
      (findChapterMeta (((loadProjectMetaPure m0 now).1.chapters).getD [])
        chapterId).isSome = true →
      normalizeSavedContent (readFileIfExists s.committed chapterId) =
        normalizeSavedContent content →
      (saveChapterS s now chapterId content =
        (if (loadProjectMetaPure m0 now).2 then
          { s with meta := some (loadProjectMetaPure m0 now).1 }
        else s)) ∧
      (∀ u : Nat, m0.updatedAt = some u → ¬ u = 0 →
        (loadProjectMetaPure m0 now).1.updatedAt = some u) := by
  intro s m0 now chapterId content hmeta hnz hfind hnorm
  constructor
  · obtain ⟨c, hc⟩ := Option.isSome_iff_exists.mp hfind
    rw [saveChapterS, hmeta]
    dsimp only
    rw [hc]
    dsimp only
    by_cases hdirty : (loadProjectMetaPure m0 now).2
    · rw [if_pos hdirty]
      have hcom : ({ s with meta := some (loadProjectMetaPure m0 now).1 } : StoreState).committed
          = s.committed := rfl
      rw [hcom, if_pos hnorm]
      show reloadAfterRead _ now = _
      rw [reloadAfterRead]
      dsimp only
      rw [loadPure_clean_after_load m0 now now hnz]
      rfl
    · rw [if_neg hdirty]
      rw [if_pos hnorm]
      show reloadAfterRead s now = s
      rw [reloadAfterRead, hmeta]
      dsimp only
      rw [if_neg hdirty]
  · intro u hu huz
    have : jsFalsyNat m0.updatedAt = false := by
      rw [hu]
      simpa [jsFalsyNat] using huz
    show (if jsFalsyNat m0.updatedAt then _ else m0.updatedAt) = some u
    rw [this]
    simpa using hu

/-- C3 witness: re-committing `"hello"` with only trailing whitespace added
leaves the concrete store untouched. -/
theorem commit_noop_on_trailing_whitespace_equal_witness :
    saveChapterS sampleStoreState 9 ("c1") ("hello  \n") =
      (if (loadProjectMetaPure sampleProjectMeta 9).2 then
        { sampleStoreState with
            meta := some (loadProjectMetaPure sampleProjectMeta 9).1 }
      else sampleStoreState) :=
  (commit_noop_on_trailing_whitespace_equal sampleStoreState sampleProjectMeta
    9 ("c1") ("hello  \n") rfl (by decide) rfl rfl).1

/-- C10 witness: the autosave and snapshot-listing parts applied at concrete
inputs. -/
theorem recorded_words_are_codepoints_witness :
    (autosaveChapterMetaUpdate 4 ("hi there")
      (ChapterMeta.node ("c1") ("Ch") (some .chapter) none (some 0) (some ("outline"))
        (some ("balanced")) (some ("m")) (some ("")) (some 1) [])).words =
      some ("hi there").data.length ∧
    ∃ e ∈ listSnapshots [(5, "hi there")], e.timestamp = 5 ∧
      e.words = ("hi there").data.length :=
  ⟨recorded_words_are_codepoints.2.1 4 ("hi there")
      (ChapterMeta.node ("c1") ("Ch") (some .chapter) none (some 0) (some ("outline"))
        (some ("balanced")) (some ("m")) (some ("")) (some 1) []) rfl,
    recorded_words_are_codepoints.2.2.1 [(5, "hi there")] 5 ("hi there") (by decide)⟩

end ProjectStore
